import Mathlib

/-!
# Verification of the tech-contrib-site data pipeline

Shallow embedding of `scripts/fetch_data.py` and `scripts/format_data.py`:
the paginated/retrying fetcher, the incremental merge-by-transaction-id
store, the name normalizer, the cluster detector and the PAC filter,
together with theorems checking the specification's claims about them.

Modelling conventions:
* Python `dict` is modelled as an association list in insertion order,
  with `dict[k] = v` updating in place (keeping the key's position) when
  the key is present and appending otherwise.
* A raw API record held by the merge store is modelled as a pair
  `(transaction_id, payload)`; extracting `item['transaction_id']` is the
  first projection.
* Monetary amounts are modelled as `ℚ` (the scripts use Python floats).
* Parsed contribution dates (`pd.to_datetime`) are modelled as `Int`
  day counts; the `'%Y-%m-%d'` rendering is modelled by an injective
  rendering function `dateFmt`.
* HTTP traffic is modelled by an oracle giving, per page and per attempt,
  either a transport error or a response with a status and a body.
-/

namespace TechContrib

/-! ## IncrementalMergeStore (from `fetch_data.py`, `main`)

`existing_contributions[item['transaction_id']] = item`, on a Python dict.
-/

section MergeStore

variable {V : Type}

/-- Python `dict` assignment `m[k] = v`: if `k` is already a key, the value
is updated in place (the key keeps its original position); otherwise the
binding is appended at the end. -/
def dictInsert (m : List (String × V)) (k : String) (v : V) : List (String × V) :=
  if m.any (fun p => p.1 == k) then
    m.map (fun p => if p.1 == k then (k, v) else p)
  else m ++ [(k, v)]

/-- The keys of the mapping, in iteration order (`list(m.keys())`). -/
def dictKeys (m : List (String × V)) : List String :=
  m.map Prod.fst

/-- The values of the mapping, in iteration order (`list(m.values())`). -/
def dictValues (m : List (String × V)) : List V :=
  m.map Prod.snd

/-- Python `m.get(k)`: the value at `k`, if present. -/
def dictLookup (m : List (String × V)) (k : String) : Option V :=
  (m.find? (fun p => p.1 == k)).map Prod.snd

/-- `for item in batch: existing[item.transaction_id] = item`, where each
batch element is the pair `(transaction_id, payload)`. -/
def mergeBatch (m : List (String × V)) (batch : List (String × V)) : List (String × V) :=
  batch.foldl (fun acc kv => dictInsert acc kv.1 kv.2) m

/-- The last value bound to key `k` by a batch, if any (the value that
"last write wins" leaves in the mapping). -/
def lastVal (k : String) : List (String × V) → Option V
  | [] => none
  | kv :: B =>
    match lastVal k B with
    | some v => some v
    | none => if kv.1 == k then some kv.2 else none

/-- Outcome of `json.load` on the persisted contributions file, as observed
by `main`'s `try`/`except json.JSONDecodeError` block. -/
inductive ParseOutcome (V : Type) where
  /-- The file parsed as a list of records. -/
  | ok (items : List (String × V))
  /-- `json.JSONDecodeError` was raised: the file is not valid JSON. -/
  | jsonError

/-- Loading the persisted collection in `main`: on a parse error the
exception is caught, a message is printed and `existing_contributions`
is left empty; otherwise every parsed item is inserted keyed by its
transaction identifier. -/
def loadContributions : ParseOutcome V → List (String × V)
  | .jsonError => []
  | .ok items => mergeBatch [] items

/-- The contribution phase of `main`: load the persisted state, then merge
each fetched batch in turn; the serialized output is `list(values())`. -/
def runContribPhase (parsed : ParseOutcome V) (batches : List (List (String × V))) : List V :=
  dictValues (batches.foldl mergeBatch (loadContributions parsed))

end MergeStore

/-! ## Fetcher (from `fetch_data.py`, `FECContributionAnalyzer._fetch_paginated_data`) -/

/-- The body of an HTTP response, as seen by `response.json()` and the
subsequent dictionary accesses. `results` being absent behaves exactly like
`results = []` (`data.get('results', [])`), so the two are identified. -/
inductive Body (ρ : Type) where
  /-- A body that is not JSON, or is JSON but not an object: `response.json()`
  (resp. `data.get`) raises. -/
  | malformed
  /-- A JSON object with a `results` list and optional `pagination.pages`. -/
  | obj (results : List ρ) (pages : Option Nat)
deriving DecidableEq

/-- The outcome of one `requests.get` call. -/
inductive FetchResp (ρ : Type) where
  /-- `requests.exceptions.RequestException` was raised. -/
  | netErr
  /-- A response arrived with the given status code and body. -/
  | httpResp (status : Nat) (body : Body ρ)
deriving DecidableEq

/-- The local state of the per-page retry loop: the `response` variable
(which keeps its previous value when `requests.get` raises), the number of
`requests.get` calls made so far, and the number of `time.sleep(5)` calls
made so far. -/
structure AttemptState (ρ : Type) where
  response : Option (Nat × Body ρ)
  reqs : Nat
  sleeps : Nat
deriving DecidableEq

/-- The `for attempt in range(retries)` loop for one page: `oracle a` is
what the `a`-th (0-based) `requests.get` call for this page does.
A 200 response breaks out of the loop; a non-200 response or a transport
error sleeps 5 seconds and moves on to the next attempt. -/
def runAttempts (oracle : Nat → FetchResp ρ) : Nat → Nat → AttemptState ρ → AttemptState ρ
  | _, 0, st => st
  | i, n + 1, st =>
    match oracle i with
    | .netErr =>
        runAttempts oracle (i + 1) n
          { st with reqs := st.reqs + 1, sleeps := st.sleeps + 1 }
    | .httpResp s b =>
        if s = 200 then
          { st with response := some (s, b), reqs := st.reqs + 1 }
        else
          runAttempts oracle (i + 1) n
            { response := some (s, b), reqs := st.reqs + 1, sleeps := st.sleeps + 1 }

/-- The observable outcome of `_fetch_paginated_data`. -/
inductive FetchOutcome (ρ : Type) where
  /-- The function returned `all_results`, having made `reqs` requests and
  slept `sleeps` times. -/
  | ok (results : List ρ) (reqs sleeps : Nat)
  /-- An uncaught exception propagated to the caller (a 200 response whose
  body could not be parsed as a JSON object). -/
  | raised
  /-- Artifact of the embedding: the page bound `fuel` was exhausted. -/
  | fuelOut
deriving DecidableEq

/-- The `while True` pagination loop of `_fetch_paginated_data`.
`oracle page attempt` is the outcome of the `attempt`-th `requests.get`
call for `page`. `fuel` bounds the number of pages processed. -/
def fetchLoop (oracle : Nat → Nat → FetchResp ρ) :
    Nat → Nat → List ρ → Nat → Nat → FetchOutcome ρ
  | 0, _, _, _, _ => .fuelOut
  | fuel + 1, page, acc, reqs, sleeps =>
    let st := runAttempts (oracle page) 0 3 ⟨none, reqs, sleeps⟩
    match st.response with
    | none => .ok acc st.reqs st.sleeps
    | some (status, body) =>
      if status ≠ 200 then .ok acc st.reqs st.sleeps
      else
        match body with
        | .malformed => .raised
        | .obj results pag =>
          if results.isEmpty then .ok acc st.reqs st.sleeps
          else
            match pag with
            | none => .ok (acc ++ results) st.reqs st.sleeps
            | some pages =>
              if pages ≤ page then .ok (acc ++ results) st.reqs st.sleeps
              else fetchLoop oracle fuel (page + 1) (acc ++ results) st.reqs st.sleeps

/-- `_fetch_paginated_data`: start at page 1 with an empty accumulator. -/
def fetchPaginated (oracle : Nat → Nat → FetchResp ρ) (fuel : Nat) : FetchOutcome ρ :=
  fetchLoop oracle fuel 1 [] 0 0

/-- An attempt fails when `requests.get` raises or the status is not 200;
the loop then sleeps and retries. -/
def attemptFails (r : FetchResp ρ) : Prop :=
  r = .netErr ∨ ∃ s b, s ≠ 200 ∧ r = .httpResp s b

/-- The `response` variable does not currently hold a 200 response. -/
def respNotOk (o : Option (Nat × Body ρ)) : Prop :=
  ∀ b, o ≠ some (200, b)

/-! ## Python string comparison

Python compares strings lexicographically by code point. This is embedded
as an executable Boolean comparison (Mathlib's `≤` on `String` is
propositionally the same order, but its `Decidable` instance does not
reduce in the kernel, so sorting is defined over this one). -/

/-- Lexicographic (code-point) `≤` on character lists. -/
def strLeB : List Char → List Char → Bool
  | [], _ => true
  | _ :: _, [] => false
  | a :: as, b :: bs =>
    decide (a.toNat < b.toNat) || (a.toNat == b.toNat && strLeB as bs)

/-- Python `s <= t` on strings, as a proposition. -/
def pyLe (s t : String) : Prop :=
  strLeB s.data t.data = true

instance : DecidableRel pyLe := fun s t =>
  inferInstanceAs (Decidable (strLeB s.data t.data = true))

/-! ## NameNormalizer (from `format_data.py`, `normalize_name`) -/

/-- A Python value passed to `normalize_name`: either a `str` or anything
else (e.g. the float NaN pandas substitutes for a missing name), which the
`isinstance(name, str)` guard rejects. -/
inductive NameField where
  | str (s : String)
  | nonString
deriving DecidableEq

/-- `name.lower()`. -/
def pyLower (l : List Char) : List Char :=
  l.map Char.toLower

/-- `''.join(c for c in name if c.isalnum() or c.isspace())`. -/
def keepAlnumSpace (l : List Char) : List Char :=
  l.filter (fun c => c.isAlphanum || c.isWhitespace)

/-- Helper for `str.split()`: `acc` is the current token, reversed. -/
def splitWsAux : List Char → List Char → List String
  | [], acc => if acc.isEmpty then [] else [String.mk acc.reverse]
  | c :: cs, acc =>
    if c.isWhitespace then
      if acc.isEmpty then splitWsAux cs []
      else String.mk acc.reverse :: splitWsAux cs []
    else splitWsAux cs (c :: acc)

/-- Python `str.split()` with no argument: split on runs of whitespace,
dropping empty tokens. -/
def pySplit (s : String) : List String :=
  splitWsAux s.data []

/-- `suffixes_to_remove = {'mr', 'ms', 'mrs', 'jr', 'sr', 'ii', 'iii', 'iv'}`. -/
def suffixes_to_remove : List String :=
  ["mr", "ms", "mrs", "jr", "sr", "ii", "iii", "iv"]

/-- Python `' '.join(ts)`. -/
def joinSp : List String → String
  | [] => ""
  | [t] => t
  | t :: ts => t ++ " " ++ joinSp ts

/-- `p not in suffixes_to_remove and len(p) > 1`. -/
def keepToken (p : String) : Bool :=
  !suffixes_to_remove.contains p && decide (1 < p.length)

/-- The fallback filter: `p not in suffixes_to_remove` only. -/
def keepTokenFallback (p : String) : Bool :=
  !suffixes_to_remove.contains p

/-- The token-cleaning step of `normalize_name`: drop suffix tokens and
single-character tokens; if nothing survives, fall back to dropping only
suffix tokens. -/
def cleanedTokens (parts : List String) : List String :=
  let cleaned_parts := parts.filter keepToken
  if cleaned_parts.isEmpty then parts.filter keepTokenFallback
  else cleaned_parts

/-- `normalize_name` from `format_data.py`: lowercase, strip every
character that is not alphanumeric or whitespace, split on whitespace,
drop suffix tokens and single-character tokens (falling back to only the
suffix filter when nothing survives), sort and join with spaces.
Non-string input yields `""`. -/
def normalize_name : NameField → String
  | .nonString => ""
  | .str name =>
    let name := String.mk (keepAlnumSpace (pyLower name.data))
    let parts := pySplit name
    joinSp (List.insertionSort pyLe (cleanedTokens parts))

/-- `normalize_name` on a string input. -/
def normStr (s : String) : String :=
  normalize_name (.str s)

/-! ## ClusterDetector (from `format_data.py`, `format_cluster_data`) -/

/-- The `committee` descriptor embedded in a raw contribution record;
both fields are read with `.get`, so they may be absent. -/
structure CommitteeInfo where
  name : Option String
  party_full : Option String
deriving DecidableEq

/-- A raw individual contribution record (Schedule A), with the fields
`format_cluster_data` reads. `contribution_receipt_date` is the parsed
date (`pd.to_datetime`), modelled as a day count. -/
structure ContribRecord where
  contributor_name : String
  contributor_employer : String
  contributor_occupation : Option String
  contribution_receipt_amount : ℚ
  contribution_receipt_date : Int
  committee_id : String
  committee : CommitteeInfo
  pdf_url : String
deriving DecidableEq

/-- One member contribution of a cluster (dataclass `FormattedContribution`). -/
structure FormattedContribution where
  donorName : String
  donorInfo : String
  amount : ℚ
  date : String
  fecUrl : String
deriving DecidableEq

/-- A detected cluster (dataclass `ClusterEvent`). -/
structure ClusterEvent where
  recipientName : String
  recipientParty : String
  isExtreme : Bool
  totalAmount : ℚ
  donorCount : Nat
  timeframe : String
  contributions : List FormattedContribution
deriving DecidableEq

/-- `COMPANY_PACS` from `format_data.py`, in dict insertion order. -/
def COMPANY_PACS : List (String × String) :=
  [("Google", "C00428623"), ("Meta", "C00786883"), ("Microsoft", "C00227546")]

/-- Does `needle` occur at the head of `hay`? -/
def leadMatch : List Char → List Char → Bool
  | [], _ => true
  | _ :: _, [] => false
  | a :: as, b :: bs => a == b && leadMatch as bs

/-- Substring containment on character lists. -/
def containsSub (needle : List Char) : List Char → Bool
  | [] => needle.isEmpty
  | c :: rest => leadMatch needle (c :: rest) || containsSub needle rest

/-- Python `needle in hay` on strings. -/
def pyIn (needle hay : String) : Bool :=
  containsSub needle.data hay.data

/-- `s.lower()` on a string. -/
def strLower (s : String) : String :=
  String.mk (pyLower s.data)

/-- `next((key for key in COMPANY_PACS if key.lower() in employer.lower()), None)`,
returning the matched entry (the generator stops at the FIRST key, in dict
order, whose lowercased name is a substring of the lowercased employer). -/
def employerMatch (employer : String) : Option (String × String) :=
  COMPANY_PACS.find? (fun kv => pyIn (strLower kv.1) (strLower employer))

/-- The ordering `pandas.groupby` applies to the composite group keys
`(committee_id, contributor_employer)`. -/
def pairLe (a b : String × String) : Prop :=
  (strLeB a.1.data b.1.data && (!strLeB b.1.data a.1.data || strLeB a.2.data b.2.data)) = true

instance : DecidableRel pairLe := fun a b =>
  inferInstanceAs
    (Decidable ((strLeB a.1.data b.1.data &&
      (!strLeB b.1.data a.1.data || strLeB a.2.data b.2.data)) = true))

/-- The distinct group keys of `df.groupby(['committee_id',
'contributor_employer'])`, sorted as pandas sorts them. -/
def groupKeys (rs : List ContribRecord) : List (String × String) :=
  List.insertionSort pairLe
    ((rs.map (fun r => (r.committee_id, r.contributor_employer))).dedup)

/-- The rows of one group, in original row order. -/
def groupRows (rs : List ContribRecord) (k : String × String) : List ContribRecord :=
  rs.filter (fun r => r.committee_id == k.1 && r.contributor_employer == k.2)

/-- `group['normalized_name'].nunique()`: the number of distinct normalized
contributor names in the group. -/
def nuniqueNames (g : List ContribRecord) : Nat :=
  ((g.map (fun r => normStr r.contributor_name)).dedup).length

/-- `row['contribution_receipt_date'].strftime('%Y-%m-%d')`: the rendering
of a parsed date, modelled as an injective rendering of the day count. -/
def dateFmt (d : Int) : String :=
  toString d

/-- Building one `FormattedContribution` from a row. -/
def mkContribution (r : ContribRecord) : FormattedContribution where
  donorName := r.contributor_name
  donorInfo := r.contributor_employer ++ ", " ++ r.contributor_occupation.getD "N/A"
  amount := r.contribution_receipt_amount
  date := dateFmt r.contribution_receipt_date
  fecUrl := r.pdf_url

/-- The timeframe label computed from the day span of the group. -/
def timeframeOf (time_delta_days : Int) : String :=
  if 7 < time_delta_days then s!"over {time_delta_days} days"
  else if 1 < time_delta_days then "in the last week"
  else "in the last 24 hours"

/-- Building the `ClusterEvent` of one surviving nonempty group
`r₀ :: rest`. -/
def mkCluster (r₀ : ContribRecord) (rest : List ContribRecord) : ClusterEvent :=
  let g := r₀ :: rest
  let committee_info := r₀.committee
  let minDate := (rest.map (fun r => r.contribution_receipt_date)).foldl min
    r₀.contribution_receipt_date
  let maxDate := (rest.map (fun r => r.contribution_receipt_date)).foldl max
    r₀.contribution_receipt_date
  { recipientName := committee_info.name.getD "Unknown Committee"
    recipientParty := (committee_info.party_full.getD "").trim
    isExtreme := false
    totalAmount := (g.map (fun r => r.contribution_receipt_amount)).sum
    donorCount := nuniqueNames g
    timeframe := timeframeOf (maxDate - minDate)
    contributions :=
      List.insertionSort (fun a b => pyLe b.date a.date) (g.map mkContribution) }

/-- `format_cluster_data` from `format_data.py`: group by
`(committee_id, contributor_employer)`; discard a group whose recipient is
the (first-)matched employer company's own PAC; discard groups with fewer
than 2 distinct normalized donors; build a `ClusterEvent` per survivor and
sort by total amount, descending. -/
def format_cluster_data (rs : List ContribRecord) : List ClusterEvent :=
  if rs.isEmpty then []
  else
    let clusters := (groupKeys rs).filterMap (fun k =>
      match groupRows rs k with
      | [] => none
      | r₀ :: rest =>
        let excluded :=
          match employerMatch k.2 with
          | some kv => k.1 == kv.2
          | none => false
        if excluded then none
        else if nuniqueNames (r₀ :: rest) < 2 then none
        else some (mkCluster r₀ rest))
    List.insertionSort (fun a b => b.totalAmount ≤ a.totalAmount) clusters

/-! ## PacFilter (from `format_data.py`, `format_pac_data`) -/

/-- The disbursing committee descriptor (`expenditure['committee']`). -/
structure DisbCommittee where
  name : String
deriving DecidableEq

/-- The recipient committee descriptor, when present. -/
structure RecipCommittee where
  name : String
  party_full : Option String
deriving DecidableEq

/-- A raw Schedule B disbursement record, with the fields `format_pac_data`
reads. -/
structure DisbRecord where
  transaction_id : String
  committee : DisbCommittee
  disbursement_amount : Option ℚ
  disbursement_date : String
  disbursement_purpose_category : Option String
  recipient_committee : Option RecipCommittee
  pdf_url : String
deriving DecidableEq

/-- A clean PAC donation (dataclass `PacDonation`). -/
structure PacDonation where
  donorName : String
  recipientName : String
  amount : ℚ
  recipientParty : String
  date : String
  fecUrl : String
deriving DecidableEq

/-- `df.drop_duplicates(subset=['transaction_id'], keep='first')`:
`seen` holds the transaction identifiers already kept. -/
def dedupByTidAux (seen : List String) : List DisbRecord → List DisbRecord
  | [] => []
  | r :: rest =>
    if seen.contains r.transaction_id then dedupByTidAux seen rest
    else r :: dedupByTidAux (r.transaction_id :: seen) rest

/-- Deduplication by transaction identifier, first occurrence wins. -/
def dedupByTid (rs : List DisbRecord) : List DisbRecord :=
  dedupByTidAux [] rs

/-- The `PacDonation` built from a surviving row with amount `amount` and
recipient `rc`. -/
def mkPacDonation (r : DisbRecord) (amount : ℚ) (rc : RecipCommittee) : PacDonation where
  donorName := r.committee.name
  recipientName := rc.name
  amount := amount
  recipientParty := (rc.party_full.getD "").trim
  date := r.disbursement_date
  fecUrl := r.pdf_url

/-- The body of the `for _, expenditure in df.iterrows()` loop: the two
`continue` guards, then the append. -/
def pacStep (acc : List PacDonation) (r : DisbRecord) : List PacDonation :=
  match r.disbursement_amount with
  | none => acc
  | some amount =>
    if amount ≤ 0 then acc
    else
      match r.recipient_committee with
      | none => acc
      | some rc =>
        if r.disbursement_purpose_category ≠ some "CONTRIBUTIONS" then acc
        else acc ++ [mkPacDonation r amount rc]

/-- `format_pac_data` from `format_data.py`: deduplicate by transaction
identifier, keep positive-amount `CONTRIBUTIONS` rows with a recipient,
and sort the resulting donations by date, descending. -/
def format_pac_data (rs : List DisbRecord) : List PacDonation :=
  if rs.isEmpty then []
  else
    let pac_donations := (dedupByTid rs).foldl pacStep []
    List.insertionSort (fun a b => pyLe b.date a.date) pac_donations

/-! ## Specification-side definitions (for refinement statements)

These restate, in the spec's words, the record-keeping rule of the
PacFilter; they are compared against the source-derived
`format_pac_data`. -/

/-- The spec's keep-rule: amount present and strictly positive, recipient
committee descriptor present, purpose category exactly `"CONTRIBUTIONS"`. -/
def specKeep (r : DisbRecord) : Bool :=
  (match r.disbursement_amount with
   | some a => decide (0 < a)
   | none => false)
  && r.recipient_committee.isSome
  && (r.disbursement_purpose_category == some "CONTRIBUTIONS")

/-- The spec's record-to-donation mapping (defaults are never used on
records passing `specKeep`). -/
def specDonation (r : DisbRecord) : PacDonation :=
  mkPacDonation r (r.disbursement_amount.getD 0)
    (r.recipient_committee.getD ⟨"", none⟩)

/-! ## Concrete example records used by counterexamples and witnesses -/

/-- A contribution whose employer string contains two known company names
(`"Google"` and `"Meta"`) and whose recipient is Meta's own PAC identifier. -/
def cexRec1 : ContribRecord where
  contributor_name := "Ann Smith"
  contributor_employer := "Google Meta"
  contributor_occupation := some "VP"
  contribution_receipt_amount := 100
  contribution_receipt_date := 10
  committee_id := "C00786883"
  committee := { name := some "META PAC", party_full := some "" }
  pdf_url := "u1"

/-- A second, distinct donor in the same group as `cexRec1`. -/
def cexRec2 : ContribRecord where
  contributor_name := "Bob Jones"
  contributor_employer := "Google Meta"
  contributor_occupation := some "VP"
  contribution_receipt_amount := 200
  contribution_receipt_date := 11
  committee_id := "C00786883"
  committee := { name := some "META PAC", party_full := some "" }
  pdf_url := "u2"

/-- A Microsoft executive contribution to Microsoft's own PAC. -/
def msRec1 : ContribRecord where
  contributor_name := "SMITH, BRADFORD L."
  contributor_employer := "Microsoft"
  contributor_occupation := some "PRESIDENT"
  contribution_receipt_amount := 500
  contribution_receipt_date := 20
  committee_id := "C00227546"
  committee := { name := some "MSVPAC", party_full := some "" }
  pdf_url := "u3"

/-- A second, distinct Microsoft donor to Microsoft's own PAC. -/
def msRec2 : ContribRecord where
  contributor_name := "Satya Nadella"
  contributor_employer := "Microsoft"
  contributor_occupation := some "CEO"
  contribution_receipt_amount := 500
  contribution_receipt_date := 21
  committee_id := "C00227546"
  committee := { name := some "MSVPAC", party_full := some "" }
  pdf_url := "u4"

/-- A disbursement record passing every PacFilter check. -/
def pacRec1 : DisbRecord where
  transaction_id := "T1"
  committee := ⟨"GOOGLE LLC NETPAC"⟩
  disbursement_amount := some 1000
  disbursement_date := "2025-08-29"
  disbursement_purpose_category := some "CONTRIBUTIONS"
  recipient_committee := some ⟨"TROY CARTER FOR CONGRESS", some "DEMOCRATIC PARTY"⟩
  pdf_url := "p1"

/-- A duplicate of `pacRec1`'s transaction identifier with another amount. -/
def pacRec2 : DisbRecord where
  transaction_id := "T1"
  committee := ⟨"GOOGLE LLC NETPAC"⟩
  disbursement_amount := some 777
  disbursement_date := "2025-08-30"
  disbursement_purpose_category := some "CONTRIBUTIONS"
  recipient_committee := some ⟨"TROY CARTER FOR CONGRESS", some "DEMOCRATIC PARTY"⟩
  pdf_url := "p2"

/-! # Theorems -/

/-! ## C4: merge overwrite and iteration order (corrected) -/

/-- C4 counterexample: merging existing `{A: v1, C: v3}` with the batch
`[A:v2, B:v4]` does NOT iterate in the order `[A, B, C]` claimed by the
spec (the Python dict iterates pre-existing keys first, so the order is
`[A, C, B]`). -/
theorem merge_overwrite_order_cex :
    dictKeys (mergeBatch [("A", "v1"), ("C", "v3")] [("A", "v2"), ("B", "v4")])
      ≠ ["A", "B", "C"] := by
  decide

/-- C4 amended: merging existing `{A: v1, C: v3}` with the batch
`[A:v2, B:v4]` yields the mapping `{A: v2, B: v4, C: v3}` (last write wins
for the colliding identifier `A`), with iteration order `[A, C, B]`:
pre-existing identifiers first, in their original order, followed by newly
inserted identifiers. -/
theorem merge_overwrite_amended {V : Type} (v1 v2 v3 v4 : V) :
    mergeBatch [("A", v1), ("C", v3)] [("A", v2), ("B", v4)]
        = [("A", v2), ("C", v3), ("B", v4)]
      ∧ dictKeys (mergeBatch [("A", v1), ("C", v3)] [("A", v2), ("B", v4)])
        = ["A", "C", "B"]
      ∧ dictLookup (mergeBatch [("A", v1), ("C", v3)] [("A", v2), ("B", v4)]) "A"
        = some v2
      ∧ dictLookup (mergeBatch [("A", v1), ("C", v3)] [("A", v2), ("B", v4)]) "B"
        = some v4
      ∧ dictLookup (mergeBatch [("A", v1), ("C", v3)] [("A", v2), ("B", v4)]) "C"
        = some v3 := by
  refine ⟨rfl, rfl, rfl, rfl, rfl⟩

/-! ## C6: name normalization examples (confirmed) -/

/-- C6: `normalize_name` sends `"SMITH, BRADFORD L."` and
`"Bradford L. Smith"` to `"bradford smith"`, sends
`"Mark Elliot Zuckerberg"` to `"elliot mark zuckerberg"`, and sends any
non-string input to the empty string. -/
theorem normalize_name_examples :
    normalize_name (.str "SMITH, BRADFORD L.") = "bradford smith"
      ∧ normalize_name (.str "Bradford L. Smith") = "bradford smith"
      ∧ normalize_name (.str "Mark Elliot Zuckerberg") = "elliot mark zuckerberg"
      ∧ normalize_name .nonString = "" := by
  refine ⟨by decide, by decide, by decide, rfl⟩

/-! ## C9: corrupt persisted state treated as empty (confirmed) -/

/-- C9: when the persisted contributions file is present but not valid
JSON (`json.JSONDecodeError`), the prior state is treated as the empty
mapping and the run continues: the subsequent merge of any fetched batches
proceeds exactly as it would from an empty prior state. -/
theorem corrupt_state_treated_as_empty {V : Type}
    (batches : List (List (String × V))) :
    loadContributions (V := V) .jsonError = []
      ∧ runContribPhase .jsonError batches = runContribPhase (.ok []) batches := by
  exact ⟨rfl, rfl⟩

/-! ## Fetcher lemmas -/

/-- If every attempt in the window fails (transport error or non-200),
the retry loop runs all of them, making one request and one sleep per
attempt, and ends without a 200 response. -/
theorem runAttempts_fail_all {ρ : Type} (oracle : Nat → FetchResp ρ) :
    ∀ (n i : Nat) (st : AttemptState ρ),
      (∀ a, i ≤ a → a < i + n → attemptFails (oracle a)) →
      respNotOk st.response →
      ∃ resp, runAttempts oracle i n st = ⟨resp, st.reqs + n, st.sleeps + n⟩
        ∧ respNotOk resp := by
  intro n
  induction n with
  | zero =>
    intro i st _ hst
    exact ⟨st.response, rfl, hst⟩
  | succ n ih =>
    intro i st h hst
    have e1 : st.reqs + 1 + n = st.reqs + (n + 1) := by omega
    have e2 : st.sleeps + 1 + n = st.sleeps + (n + 1) := by omega
    rcases h i le_rfl (by omega) with hne | ⟨s, b, hs, he⟩
    · obtain ⟨resp, heq, hr⟩ :=
        ih (i + 1) { st with reqs := st.reqs + 1, sleeps := st.sleeps + 1 }
          (fun a ha1 ha2 => h a (by omega) (by omega)) hst
      refine ⟨resp, ?_, hr⟩
      simp only [runAttempts, hne]
      rw [heq]
      simp only at e1 e2
      rw [e1, e2]
    · have hnotOk : respNotOk (ρ := ρ) (some (s, b)) := by
        intro b' hEq
        exact hs (congrArg Prod.fst (Option.some.inj hEq))
      obtain ⟨resp, heq, hr⟩ :=
        ih (i + 1) ⟨some (s, b), st.reqs + 1, st.sleeps + 1⟩
          (fun a ha1 ha2 => h a (by omega) (by omega)) hnotOk
      refine ⟨resp, ?_, hr⟩
      simp only [runAttempts, he, if_neg hs]
      rw [heq, e1, e2]

/-- If all 3 attempts for a page fail, the pagination loop returns the
accumulator unchanged after exactly 3 requests and 3 sleeps. -/
theorem fetchLoop_abandon {ρ : Type} (oracle : Nat → Nat → FetchResp ρ)
    (fuel page : Nat) (acc : List ρ) (reqs sleeps : Nat)
    (h : ∀ a, a < 3 → attemptFails (oracle page a)) :
    fetchLoop oracle (fuel + 1) page acc reqs sleeps = .ok acc (reqs + 3) (sleeps + 3) := by
  obtain ⟨resp, heq, hr⟩ :=
    runAttempts_fail_all (oracle page) 3 0 ⟨none, reqs, sleeps⟩
      (fun a _ ha => h a (by omega)) (by intro b hb; cases hb)
  simp only [fetchLoop]
  rw [heq]
  cases resp with
  | none => rfl
  | some p =>
    obtain ⟨s, b⟩ := p
    have hs : s ≠ 200 := fun h200 => hr b (by rw [h200])
    simp [hs]

/-- If no oracle response is a 200 with a malformed body, the `response`
variable never holds one. -/
theorem runAttempts_no_malformed {ρ : Type} (oracle : Nat → FetchResp ρ)
    (hsafe : ∀ a, oracle a ≠ .httpResp 200 .malformed) :
    ∀ (n i : Nat) (st : AttemptState ρ),
      st.response ≠ some (200, .malformed) →
      (runAttempts oracle i n st).response ≠ some (200, .malformed) := by
  intro n
  induction n with
  | zero => intro i st h; exact h
  | succ n ih =>
    intro i st h
    cases ho : oracle i with
    | netErr =>
      simp only [runAttempts, ho]
      exact ih (i + 1) _ h
    | httpResp s b =>
      simp only [runAttempts, ho]
      by_cases h200 : s = 200
      · subst h200
        rw [if_pos rfl]
        intro hEq
        have hb : b = .malformed :=
          congrArg Prod.snd (Option.some.inj hEq)
        exact hsafe i (by rw [ho, hb])
      · rw [if_neg h200]
        apply ih
        intro hEq
        exact h200 (congrArg Prod.fst (Option.some.inj hEq))

/-- If no oracle response is a 200 with a malformed body, the pagination
loop never ends in a propagated exception. -/
theorem fetchLoop_no_raise {ρ : Type} (oracle : Nat → Nat → FetchResp ρ)
    (hsafe : ∀ p a, oracle p a ≠ .httpResp 200 .malformed) :
    ∀ (fuel page : Nat) (acc : List ρ) (reqs sleeps : Nat),
      fetchLoop oracle fuel page acc reqs sleeps ≠ .raised := by
  intro fuel
  induction fuel with
  | zero => intro page acc reqs sleeps hEq; cases hEq
  | succ fuel ih =>
    intro page acc reqs sleeps
    have hresp :=
      runAttempts_no_malformed (oracle page) (hsafe page) 3 0 ⟨none, reqs, sleeps⟩
        (by intro hEq; cases hEq)
    simp only [fetchLoop]
    split
    · intro hEq; cases hEq
    · rename_i status body heq
      split
      · intro hEq; cases hEq
      · rename_i hns
        have h200 : status = 200 := not_not.mp hns
        subst h200
        split
        · exact absurd heq hresp
        · rename_i results pag
          split
          · intro hEq; cases hEq
          · split
            · intro hEq; cases hEq
            · split
              · intro hEq; cases hEq
              · exact ih (page + 1) (acc ++ results) _ _

/-- One step of the pagination loop when the first attempt for the page
answers 200 with a parsed object body. -/
theorem fetchLoop_first200 {ρ : Type} (oracle : Nat → Nat → FetchResp ρ)
    (fuel page : Nat) (acc res : List ρ) (pg : Option Nat) (reqs sleeps : Nat)
    (hfirst : oracle page 0 = .httpResp 200 (.obj res pg)) :
    fetchLoop oracle (fuel + 1) page acc reqs sleeps
      = (if res.isEmpty then .ok acc (reqs + 1) sleeps
         else
           match pg with
           | none => .ok (acc ++ res) (reqs + 1) sleeps
           | some tot =>
             if tot ≤ page then .ok (acc ++ res) (reqs + 1) sleeps
             else fetchLoop oracle fuel (page + 1) (acc ++ res) (reqs + 1) sleeps) := by
  have hstep :
      runAttempts (oracle page) 0 3 ⟨none, reqs, sleeps⟩
        = ⟨some (200, .obj res pg), reqs + 1, sleeps⟩ := by
    simp [runAttempts, hfirst]
  simp only [fetchLoop, hstep]
  cases pg <;> simp

/-- The happy path: every page answers 200 on the first attempt with a
nonempty `results` list and `pagination.pages = P`; starting at page `k`,
the loop returns the concatenation of pages `k..P` with one request per
page. -/
theorem fetchLoop_pages {ρ : Type} (pages : Nat → List ρ) (P : Nat)
    (hP : ∀ p, 1 ≤ p → p ≤ P → (pages p).isEmpty = false) :
    ∀ (fuel k : Nat) (acc : List ρ) (reqs sleeps : Nat),
      1 ≤ k → k ≤ P → P + 1 - k ≤ fuel →
      fetchLoop (fun p _ => .httpResp 200 (.obj (pages p) (some P))) fuel k acc reqs sleeps
        = .ok (acc ++ ((List.range' k (P + 1 - k)).map pages).flatten)
            (reqs + (P + 1 - k)) sleeps := by
  intro fuel
  induction fuel with
  | zero => intro k acc reqs sleeps hk1 hkP hfuel; omega
  | succ fuel ih =>
    intro k acc reqs sleeps hk1 hkP hfuel
    rw [fetchLoop_first200 _ fuel k acc (pages k) (some P) reqs sleeps rfl]
    rw [hP k hk1 hkP]
    by_cases hPk : P ≤ k
    · simp only [if_pos hPk, Bool.false_eq_true, if_false]
      have h1 : P + 1 - k = 1 := by omega
      rw [h1, List.range'_succ]
      simp [List.range']
    · simp only [if_neg hPk, Bool.false_eq_true, if_false]
      rw [ih (k + 1) (acc ++ pages k) (reqs + 1) sleeps (by omega) (by omega) (by omega)]
      have h1 : P + 1 - k = (P + 1 - (k + 1)) + 1 := by omega
      congr 1
      · rw [List.append_assoc]
        congr 1
        rw [h1, List.range'_succ]
        simp
      · omega

/-! ## C1: failure policy of the Fetcher (corrected) -/

/-- C1 counterexample: a 200 response whose body cannot be parsed DOES
propagate an exception to the caller (`response.json()` is outside the
`try` block), contradicting the claim that malformed bodies are retried
and never raise. -/
theorem fetcher_malformed_body_raises_cex :
    fetchPaginated (fun _ _ => FetchResp.httpResp (ρ := Unit) 200 .malformed) 5
      = .raised := by
  decide

/-- C1 amended: a non-200 response or a network/transport error counts as
one failed attempt followed by a fixed 5-time-unit wait and a retry (up to
the attempt budget), and the Fetcher never raises as long as no 200
response carries a body that fails to parse as a JSON object; a 200
response with such a malformed body, however, propagates the exception to
the caller. -/
theorem fetcher_transient_failure_amended {ρ : Type}
    (oracle : Nat → Nat → FetchResp ρ) (fuel page : Nat) (acc : List ρ)
    (reqs sleeps : Nat) (oracle1 : Nat → FetchResp ρ) (i n : Nat)
    (st : AttemptState ρ)
    (hsafe : ∀ p a, oracle p a ≠ .httpResp 200 .malformed) :
    fetchLoop oracle fuel page acc reqs sleeps ≠ .raised
      ∧ (oracle1 i = .netErr →
          runAttempts oracle1 i (n + 1) st
            = runAttempts oracle1 (i + 1) n ⟨st.response, st.reqs + 1, st.sleeps + 1⟩)
      ∧ (∀ s b, s ≠ 200 → oracle1 i = .httpResp s b →
          runAttempts oracle1 i (n + 1) st
            = runAttempts oracle1 (i + 1) n ⟨some (s, b), st.reqs + 1, st.sleeps + 1⟩) := by
  refine ⟨fetchLoop_no_raise oracle hsafe fuel page acc reqs sleeps, ?_, ?_⟩
  · intro hne
    simp [runAttempts, hne]
  · intro s b hs he
    simp [runAttempts, he, hs]

/-- Closed instance of `fetcher_transient_failure_amended`. -/
theorem fetcher_transient_failure_witness :
    fetchLoop (fun _ _ => FetchResp.httpResp (ρ := Unit) 500 (.obj [] none)) 3 1 [] 0 0
      ≠ .raised :=
  (fetcher_transient_failure_amended
    (fun _ _ => FetchResp.httpResp (ρ := Unit) 500 (.obj [] none)) 3 1 [] 0 0
    (fun _ => .netErr) 0 2 ⟨none, 0, 0⟩ (by intro p a; simp)).1

/-! ## C2: retry exhaustion abandons the query (confirmed) -/

/-- C2: if every attempt for a page fails (e.g. all responses have status
500), the Fetcher makes exactly 3 attempts (3 requests, each followed by a
wait), then abandons the entire query without raising: the accumulated
results from earlier pages are returned as-is and no further pages are
attempted; if the first page fails, the returned sequence is empty after
exactly 3 attempts. -/
theorem fetch_retry_exhaustion {ρ : Type} (oracle : Nat → Nat → FetchResp ρ)
    (fuel page : Nat) (acc : List ρ) (reqs sleeps : Nat)
    (h : ∀ a, a < 3 → attemptFails (oracle page a))
    (h1 : ∀ a, a < 3 → attemptFails (oracle 1 a)) :
    fetchLoop oracle (fuel + 1) page acc reqs sleeps = .ok acc (reqs + 3) (sleeps + 3)
      ∧ fetchPaginated oracle (fuel + 1) = .ok [] 3 3 := by
  refine ⟨fetchLoop_abandon oracle fuel page acc reqs sleeps h, ?_⟩
  have := fetchLoop_abandon oracle fuel 1 [] 0 0 h1
  simpa [fetchPaginated] using this

/-- Closed instance of `fetch_retry_exhaustion`: all responses are 500, the
result is empty after 3 requests and 3 sleeps, and results accumulated
before the failing page are kept. -/
theorem fetch_retry_exhaustion_witness :
    fetchLoop (fun _ _ => FetchResp.httpResp (ρ := Unit) 500 (.obj [] none)) 1 2 [()] 5 7
        = .ok [()] 8 10
      ∧ fetchPaginated (fun _ _ => FetchResp.httpResp (ρ := Unit) 500 (.obj [] none)) 1
        = .ok [] 3 3 :=
  fetch_retry_exhaustion (fun _ _ => FetchResp.httpResp (ρ := Unit) 500 (.obj [] none))
    0 2 [()] 5 7
    (fun a _ => Or.inr ⟨500, .obj [] none, by decide, rfl⟩)
    (fun a _ => Or.inr ⟨500, .obj [] none, by decide, rfl⟩)

/-! ## C3: pagination semantics (confirmed) -/

/-- C3: the Fetcher's result is the concatenation, in page order, of the
`results` lists of successive pages starting at page 1 (one request per
page on the happy path); on the spec's two-page example it returns
`[r1, r2]` after exactly 2 requests; and pagination stops exactly when the
current page returns zero results, or the response has no pagination
metadata, or the current page number reaches the reported total page
count (otherwise the loop continues with the next page). -/
theorem fetch_pagination {ρ : Type} (oracle : Nat → Nat → FetchResp ρ)
    (pages : Nat → List ρ) (P fuel m page reqs sleeps : Nat) (acc res : List ρ)
    (pg : Option Nat)
    (hP : ∀ p, 1 ≤ p → p ≤ P → (pages p).isEmpty = false)
    (hP1 : 1 ≤ P) (hfuel : P ≤ fuel)
    (hfirst : oracle page 0 = .httpResp 200 (.obj res pg)) :
    fetchPaginated (fun p _ => .httpResp 200 (.obj (pages p) (some P))) fuel
        = .ok (((List.range' 1 P).map pages).flatten) P 0
      ∧ (∀ r1 r2 : ρ,
          fetchPaginated (fun p _ =>
            if p = 1 then .httpResp 200 (.obj [r1] (some 2))
            else .httpResp 200 (.obj [r2] (some 2))) 2
            = .ok [r1, r2] 2 0)
      ∧ (res = [] →
          fetchLoop oracle (m + 1) page acc reqs sleeps = .ok acc (reqs + 1) sleeps)
      ∧ (res ≠ [] → pg = none →
          fetchLoop oracle (m + 1) page acc reqs sleeps
            = .ok (acc ++ res) (reqs + 1) sleeps)
      ∧ (res ≠ [] → ∀ tot, pg = some tot → tot ≤ page →
          fetchLoop oracle (m + 1) page acc reqs sleeps
            = .ok (acc ++ res) (reqs + 1) sleeps)
      ∧ (res ≠ [] → ∀ tot, pg = some tot → page < tot →
          fetchLoop oracle (m + 1) page acc reqs sleeps
            = fetchLoop oracle m (page + 1) (acc ++ res) (reqs + 1) sleeps) := by
  have hstep := fetchLoop_first200 oracle m page acc res pg reqs sleeps hfirst
  refine ⟨?_, ?_, ?_, ?_, ?_, ?_⟩
  · have h := fetchLoop_pages pages P hP fuel 1 [] 0 0 le_rfl hP1 (by omega)
    have h1 : P + 1 - 1 = P := by omega
    rw [h1] at h
    simpa [fetchPaginated] using h
  · intro r1 r2
    rfl
  · intro hres
    subst hres
    simpa using hstep
  · intro hres hpg
    subst hpg
    cases res with
    | nil => exact absurd rfl hres
    | cons a l => simpa using hstep
  · intro hres tot hpg htot
    subst hpg
    cases res with
    | nil => exact absurd rfl hres
    | cons a l => simpa [htot] using hstep
  · intro hres tot hpg htot
    subst hpg
    cases res with
    | nil => exact absurd rfl hres
    | cons a l => simpa [Nat.not_le.mpr htot] using hstep

/-- Closed instance of `fetch_pagination`: a one-page query returns that
page's results after one request. -/
theorem fetch_pagination_witness :
    fetchPaginated (fun p _ => FetchResp.httpResp 200 (Body.obj [p] (some 1))) 1
      = FetchOutcome.ok [1] 1 0 := by
  simpa using
    (fetch_pagination (ρ := Nat) (fun _ _ => .httpResp 200 (.obj [] none))
      (fun p => [p]) 1 1 0 1 0 0 [] [] none
      (fun p _ _ => rfl) (by decide) (by decide) rfl).1

/-! ## Properties of the string comparison -/

/-- The code-point comparison is total. -/
theorem strLeB_total : ∀ a b : List Char, strLeB a b = true ∨ strLeB b a = true := by
  intro a
  induction a with
  | nil => intro b; left; rfl
  | cons x xs ih =>
    intro b
    cases b with
    | nil => right; rfl
    | cons y ys =>
      rcases Nat.lt_trichotomy x.toNat y.toNat with h | h | h
      · left; simp [strLeB, h]
      · rcases ih ys with h2 | h2
        · left; simp [strLeB, h, h2]
        · right; simp [strLeB, h, h2]
      · right; simp [strLeB, h]

/-- The code-point comparison is transitive. -/
theorem strLeB_trans :
    ∀ a b c : List Char, strLeB a b = true → strLeB b c = true → strLeB a c = true := by
  intro a
  induction a with
  | nil => intro b c _ _; rfl
  | cons x xs ih =>
    intro b c hab hbc
    cases b with
    | nil => exact absurd hab (by simp [strLeB])
    | cons y ys =>
      cases c with
      | nil => exact absurd hbc (by simp [strLeB])
      | cons z zs =>
        simp only [strLeB, Bool.or_eq_true, decide_eq_true_eq, Bool.and_eq_true,
          beq_iff_eq] at hab hbc ⊢
        rcases hab with h1 | ⟨h1, h1'⟩ <;> rcases hbc with h2 | ⟨h2, h2'⟩
        · left; omega
        · left; omega
        · left; omega
        · right; exact ⟨by omega, ih ys zs h1' h2'⟩

/-- `pyLe` is total. -/
theorem pyLe_total (s t : String) : pyLe s t ∨ pyLe t s :=
  strLeB_total s.data t.data

/-- `pyLe` is transitive. -/
theorem pyLe_trans {a b c : String} (h1 : pyLe a b) (h2 : pyLe b c) : pyLe a c :=
  strLeB_trans a.data b.data c.data h1 h2

/-! ## PacFilter lemmas -/

/-- The row loop of `format_pac_data` appends exactly the claim's keep-set,
in input order. -/
theorem pacStep_foldl :
    ∀ (rs : List DisbRecord) (acc : List PacDonation),
      rs.foldl pacStep acc = acc ++ (rs.filter specKeep).map specDonation := by
  intro rs
  induction rs with
  | nil => intro acc; simp
  | cons r rest ih =>
    intro acc
    simp only [List.foldl_cons]
    rw [ih]
    cases ha : r.disbursement_amount with
    | none => simp [pacStep, specKeep, ha]
    | some a =>
      by_cases hle : a ≤ 0
      · have hnot : ¬(0 : ℚ) < a := not_lt.mpr hle
        simp [pacStep, specKeep, ha, hle, hnot]
      · cases hrc : r.recipient_committee with
        | none => simp [pacStep, specKeep, ha, hle, hrc]
        | some rc =>
          by_cases hcat : r.disbursement_purpose_category = some "CONTRIBUTIONS"
          · have hpos : (0 : ℚ) < a := not_le.mp hle
            simp [pacStep, specKeep, ha, hle, hcat, hrc, specDonation, hpos,
              mkPacDonation]
          · simp [pacStep, specKeep, ha, hle, hcat, hrc]

/-! ## C8: PacFilter behaviour (confirmed) -/

/-- C8: `format_pac_data` first deduplicates by transaction identifier
(first occurrence wins; duplicate identifiers collapse to one record),
then keeps a record if and only if its amount is present and strictly
positive, its recipient committee descriptor is present and its purpose
category is exactly `"CONTRIBUTIONS"`; survivors are emitted as
`PacDonation` entries sorted by date descending, and empty input yields
empty output. -/
theorem pac_filter_correct (rs : List DisbRecord) :
    format_pac_data [] = []
      ∧ format_pac_data rs
        = List.insertionSort (fun a b => pyLe b.date a.date)
            (((dedupByTid rs).filter specKeep).map specDonation)
      ∧ List.Sorted (fun a b : PacDonation => pyLe b.date a.date) (format_pac_data rs)
      ∧ (∀ a b : DisbRecord, a.transaction_id = b.transaction_id →
          dedupByTid [a, b] = [a]) := by
  have htot : IsTotal PacDonation (fun a b => pyLe b.date a.date) :=
    ⟨fun a b => strLeB_total b.date.data a.date.data⟩
  have htrans : IsTrans PacDonation (fun a b => pyLe b.date a.date) :=
    ⟨fun a b c h1 h2 => strLeB_trans c.date.data b.date.data a.date.data h2 h1⟩
  have heq : format_pac_data rs
      = List.insertionSort (fun a b => pyLe b.date a.date)
          (((dedupByTid rs).filter specKeep).map specDonation) := by
    cases rs with
    | nil => rfl
    | cons r rest =>
      simp only [format_pac_data, List.isEmpty_cons, Bool.false_eq_true, if_false]
      rw [pacStep_foldl]
      rfl
  refine ⟨rfl, heq, ?_, ?_⟩
  · rw [heq]
    exact @List.sorted_insertionSort _ _ _ htot htrans _
  · intro a b h
    simp [dedupByTid, dedupByTidAux, h]

/-- Closed instance of `pac_filter_correct`: duplicate transaction
identifiers collapse to the first record. -/
theorem pac_filter_witness : dedupByTid [pacRec1, pacRec2] = [pacRec1] :=
  (pac_filter_correct []).2.2.2 pacRec1 pacRec2 rfl

/-! ## Merge store lemmas -/

section MergeLemmas

variable {V : Type}

/-- Looking up in a cons: the head is consulted first. -/
theorem dictLookup_cons (p : String × V) (t : List (String × V)) (k : String) :
    dictLookup (p :: t) k = if p.1 == k then some p.2 else dictLookup t k := by
  cases hb : (p.1 == k) <;> simp [dictLookup, List.find?_cons, hb]

/-- A key that is absent looks up to `none`. -/
theorem dictLookup_eq_none (m : List (String × V)) (k : String)
    (h : k ∉ dictKeys m) : dictLookup m k = none := by
  have : m.find? (fun p => p.1 == k) = none := by
    rw [List.find?_eq_none]
    intro p hp hpk
    exact h (List.mem_map.mpr ⟨p, hp, by simpa using hpk⟩)
  simp [dictLookup, this]

/-- Updating an existing key keeps the key list unchanged. -/
theorem dictKeys_dictInsert_of_mem (m : List (String × V)) (k : String) (v : V)
    (h : k ∈ dictKeys m) : dictKeys (dictInsert m k v) = dictKeys m := by
  have hany : m.any (fun p => p.1 == k) = true := by
    obtain ⟨p, hp, hpk⟩ := List.mem_map.mp h
    exact List.any_eq_true.mpr ⟨p, hp, by simp [hpk]⟩
  simp only [dictInsert, hany, if_true]
  simp only [dictKeys, List.map_map]
  apply List.map_congr_left
  intro p _
  simp only [Function.comp_apply]
  by_cases hpk : p.1 = k
  · simp [hpk]
  · simp [hpk]

/-- Inserting a fresh key appends the binding. -/
theorem dictInsert_of_not_mem (m : List (String × V)) (k : String) (v : V)
    (h : k ∉ dictKeys m) : dictInsert m k v = m ++ [(k, v)] := by
  have hany : m.any (fun p => p.1 == k) = false := by
    rw [List.any_eq_false]
    intro p hp hpk
    exact h (List.mem_map.mpr ⟨p, hp, by simpa using hpk⟩)
  simp [dictInsert, hany]

/-- The inserted key is a key of the result. -/
theorem mem_dictKeys_dictInsert_self (m : List (String × V)) (k : String) (v : V) :
    k ∈ dictKeys (dictInsert m k v) := by
  by_cases h : k ∈ dictKeys m
  · rw [dictKeys_dictInsert_of_mem m k v h]; exact h
  · rw [dictInsert_of_not_mem m k v h]
    simp [dictKeys]

/-- Insertion preserves the presence of every key. -/
theorem mem_dictKeys_dictInsert_of_mem (m : List (String × V)) (k k' : String)
    (v : V) (h : k' ∈ dictKeys m) : k' ∈ dictKeys (dictInsert m k v) := by
  by_cases hk : k ∈ dictKeys m
  · rw [dictKeys_dictInsert_of_mem m k v hk]; exact h
  · rw [dictInsert_of_not_mem m k v hk]
    simp only [dictKeys, List.map_append]
    exact List.mem_append_left _ h

/-- Insertion makes the inserted key look up to the inserted value. -/
theorem dictLookup_dictInsert_self (m : List (String × V)) (k : String) (v : V) :
    dictLookup (dictInsert m k v) k = some v := by
  by_cases h : k ∈ dictKeys m
  · have hany : m.any (fun p => p.1 == k) = true := by
      obtain ⟨p, hp, hpk⟩ := List.mem_map.mp h
      exact List.any_eq_true.mpr ⟨p, hp, by simp [hpk]⟩
    simp only [dictInsert, hany, if_true]
    clear hany
    induction m with
    | nil => simp [dictKeys] at h
    | cons p t ih =>
      by_cases hpk : p.1 = k
      · simp [dictLookup_cons, hpk]
      · have ht : k ∈ dictKeys t := by
          rcases List.mem_map.mp h with ⟨q, hq, hqk⟩
          cases hq with
          | head => exact absurd hqk hpk
          | tail _ hq => exact List.mem_map.mpr ⟨q, hq, hqk⟩
        simpa [dictLookup_cons, hpk] using ih ht
  · rw [dictInsert_of_not_mem m k v h]
    induction m with
    | nil => simp [dictLookup_cons]
    | cons p t ih =>
      have hpk : p.1 ≠ k := by
        intro hEq
        exact h (List.mem_map.mpr ⟨p, List.mem_cons_self p t, hEq⟩)
      have ht : k ∉ dictKeys t := by
        intro hEq
        rcases List.mem_map.mp hEq with ⟨q, hq, hqk⟩
        exact h (List.mem_map.mpr ⟨q, List.mem_cons_of_mem p hq, hqk⟩)
      simpa [dictLookup_cons, hpk] using ih ht

/-- Updating the bindings of key `k` in place does not change the value of
another key. -/
theorem dictLookup_map_update (t : List (String × V)) (k k' : String) (v : V)
    (h : k' ≠ k) :
    dictLookup (t.map (fun p => if p.1 == k then (k, v) else p)) k'
      = dictLookup t k' := by
  induction t with
  | nil => rfl
  | cons p t ih =>
    simp only [List.map_cons]
    by_cases hpk : p.1 = k
    · have hb : (p.1 == k) = true := by simp [hpk]
      have h1 : (k == k') = false := by
        simp only [beq_eq_false_iff_ne, ne_eq]
        exact fun hEq => h hEq.symm
      have h2 : (p.1 == k') = false := by
        rw [hpk]
        exact h1
      rw [hb]
      simp only [if_true]
      rw [dictLookup_cons, dictLookup_cons, h1, h2]
      simp only [if_false]
      exact ih
    · have hb : (p.1 == k) = false := by simp [hpk]
      rw [hb]
      simp only [Bool.false_eq_true, if_false]
      rw [dictLookup_cons, dictLookup_cons, ih]

/-- Appending a binding for key `k` does not change the value of another
key. -/
theorem dictLookup_append_single (m : List (String × V)) (k k' : String) (v : V)
    (h : k' ≠ k) : dictLookup (m ++ [(k, v)]) k' = dictLookup m k' := by
  induction m with
  | nil =>
    have hb : (k == k') = false := by
      simp only [beq_eq_false_iff_ne, ne_eq]
      exact fun hEq => h hEq.symm
    simp [dictLookup_cons, hb, dictLookup]
  | cons p t ih =>
    simp only [List.cons_append]
    rw [dictLookup_cons, dictLookup_cons, ih]

/-- Insertion does not change the value of other keys. -/
theorem dictLookup_dictInsert_ne (m : List (String × V)) (k k' : String) (v : V)
    (h : k' ≠ k) : dictLookup (dictInsert m k v) k' = dictLookup m k' := by
  by_cases hk : k ∈ dictKeys m
  · have hany : m.any (fun p => p.1 == k) = true := by
      obtain ⟨p, hp, hpk⟩ := List.mem_map.mp hk
      exact List.any_eq_true.mpr ⟨p, hp, by simp [hpk]⟩
    simp only [dictInsert, hany, if_true]
    exact dictLookup_map_update m k k' v h
  · rw [dictInsert_of_not_mem m k v hk]
    exact dictLookup_append_single m k k' v h

/-- Insertion preserves key distinctness. -/
theorem nodup_dictKeys_dictInsert (m : List (String × V)) (k : String) (v : V)
    (h : (dictKeys m).Nodup) : (dictKeys (dictInsert m k v)).Nodup := by
  by_cases hk : k ∈ dictKeys m
  · rw [dictKeys_dictInsert_of_mem m k v hk]; exact h
  · rw [dictInsert_of_not_mem m k v hk]
    simp only [dictKeys, List.map_append, List.map_cons, List.map_nil]
    rw [List.nodup_append]
    refine ⟨h, List.nodup_singleton _, ?_⟩
    intro a ha hb
    rw [List.mem_singleton.mp hb] at ha
    exact hk ha

/-- Merging preserves the presence of every key. -/
theorem mem_dictKeys_mergeBatch (B : List (String × V)) :
    ∀ (m : List (String × V)) (k : String), k ∈ dictKeys m →
      k ∈ dictKeys (mergeBatch m B) := by
  induction B with
  | nil => intro m k h; exact h
  | cons kv B' ih =>
    intro m k h
    exact ih (dictInsert m kv.1 kv.2) k (mem_dictKeys_dictInsert_of_mem m kv.1 k kv.2 h)

/-- After a merge, every key of the batch is a key of the mapping. -/
theorem batch_keys_mem_mergeBatch (B : List (String × V)) :
    ∀ (m : List (String × V)) (kv : String × V), kv ∈ B →
      kv.1 ∈ dictKeys (mergeBatch m B) := by
  induction B with
  | nil => intro m kv h; cases h
  | cons kv0 B' ih =>
    intro m kv h
    have hm : mergeBatch m (kv0 :: B') = mergeBatch (dictInsert m kv0.1 kv0.2) B' := rfl
    rw [hm]
    rcases List.mem_cons.mp h with hEq | h'
    · rw [hEq]
      exact mem_dictKeys_mergeBatch B' (dictInsert m kv0.1 kv0.2) kv0.1
        (mem_dictKeys_dictInsert_self m kv0.1 kv0.2)
    · exact ih (dictInsert m kv0.1 kv0.2) kv h'

/-- Merging a batch whose keys are all present keeps the key list. -/
theorem dictKeys_mergeBatch_of_subset (B : List (String × V)) :
    ∀ (m : List (String × V)), (∀ kv ∈ B, kv.1 ∈ dictKeys m) →
      dictKeys (mergeBatch m B) = dictKeys m := by
  induction B with
  | nil => intro m _; rfl
  | cons kv B' ih =>
    intro m h
    have hm : mergeBatch m (kv :: B') = mergeBatch (dictInsert m kv.1 kv.2) B' := rfl
    rw [hm]
    have hkv : kv.1 ∈ dictKeys m := h kv (List.mem_cons_self kv B')
    rw [ih (dictInsert m kv.1 kv.2) (fun kv' hkv' =>
      mem_dictKeys_dictInsert_of_mem m kv.1 kv'.1 kv.2 (h kv' (List.mem_cons_of_mem kv hkv')))]
    exact dictKeys_dictInsert_of_mem m kv.1 kv.2 hkv

/-- Merging preserves key distinctness. -/
theorem nodup_dictKeys_mergeBatch (B : List (String × V)) :
    ∀ (m : List (String × V)), (dictKeys m).Nodup →
      (dictKeys (mergeBatch m B)).Nodup := by
  induction B with
  | nil => intro m h; exact h
  | cons kv B' ih =>
    intro m h
    exact ih (dictInsert m kv.1 kv.2) (nodup_dictKeys_dictInsert m kv.1 kv.2 h)

/-- Looking up after a merge: the batch's last binding for the key wins;
absent that, the original value is kept. -/
theorem dictLookup_mergeBatch (B : List (String × V)) :
    ∀ (m : List (String × V)) (k : String),
      dictLookup (mergeBatch m B) k
        = match lastVal k B with
          | some v => some v
          | none => dictLookup m k := by
  induction B with
  | nil => intro m k; rfl
  | cons kv B' ih =>
    intro m k
    have hm : mergeBatch m (kv :: B') = mergeBatch (dictInsert m kv.1 kv.2) B' := rfl
    rw [hm, ih]
    cases hl : lastVal k B' with
    | some v =>
      have hh : lastVal k (kv :: B') = some v := by simp [lastVal, hl]
      rw [hh]
    | none =>
      by_cases hk : kv.1 = k
      · have hh : lastVal k (kv :: B') = some kv.2 := by simp [lastVal, hl, hk]
        rw [hh]
        subst hk
        exact dictLookup_dictInsert_self m kv.1 kv.2
      · have hh : lastVal k (kv :: B') = none := by simp [lastVal, hl, hk]
        rw [hh]
        exact dictLookup_dictInsert_ne m kv.1 k kv.2 (Ne.symm hk)

/-- Two mappings with distinct keys, the same key list and the same
lookups are equal. -/
theorem dict_ext : ∀ (m₁ m₂ : List (String × V)),
    (dictKeys m₁).Nodup → dictKeys m₁ = dictKeys m₂ →
    (∀ k, dictLookup m₁ k = dictLookup m₂ k) → m₁ = m₂ := by
  intro m₁
  induction m₁ with
  | nil =>
    intro m₂ _ hk _
    cases m₂ with
    | nil => rfl
    | cons q t₂ => simp [dictKeys] at hk
  | cons p t ih =>
    intro m₂ hnd hk hl
    cases m₂ with
    | nil => simp [dictKeys] at hk
    | cons q t₂ =>
      simp only [dictKeys, List.map_cons, List.cons.injEq] at hk
      obtain ⟨hpq, hkt⟩ := hk
      have h1 : dictLookup (p :: t) p.1 = some p.2 := by simp [dictLookup_cons]
      have h2 : dictLookup (q :: t₂) p.1 = some q.2 := by simp [dictLookup_cons, hpq]
      have hv : p.2 = q.2 := by
        have := hl p.1
        rw [h1, h2] at this
        exact Option.some.inj this
      have hnd' : (p.1 :: dictKeys t).Nodup := by simpa [dictKeys] using hnd
      have hpnt : p.1 ∉ dictKeys t := (List.nodup_cons.mp hnd').1
      have hpnt₂ : p.1 ∉ dictKeys t₂ := by
        simp only [dictKeys] at hpnt ⊢
        rw [← hkt]
        exact hpnt
      have hlt : ∀ k, dictLookup t k = dictLookup t₂ k := by
        intro k
        by_cases hkp : k = p.1
        · rw [hkp, dictLookup_eq_none t p.1 hpnt, dictLookup_eq_none t₂ p.1 hpnt₂]
        · have := hl k
          have hpk : (p.1 == k) = false := by
            simp only [beq_eq_false_iff_ne, ne_eq]
            exact fun hEq => hkp (hEq.symm)
          have hqk : (q.1 == k) = false := by rw [← hpq]; exact hpk
          rw [dictLookup_cons, dictLookup_cons, hpk, hqk] at this
          simpa using this
      have ht := ih t₂ (List.Nodup.of_cons hnd') (by simpa [dictKeys] using hkt) hlt
      have hp : p = q := Prod.ext hpq hv
      rw [hp, ht]

end MergeLemmas

/-! ## C5: merge idempotence (confirmed) -/

/-- C5: the incremental merge is idempotent: for every stored state `S`
(a mapping, so its keys are distinct) and every record batch `B`,
`merge(merge(S, B), B) = merge(S, B)`, including the iteration order of
the resulting mapping (the results are equal as ordered association
lists). -/
theorem merge_idempotent {V : Type} (S B : List (String × V))
    (hnd : (dictKeys S).Nodup) :
    mergeBatch (mergeBatch S B) B = mergeBatch S B := by
  apply dict_ext
  · exact nodup_dictKeys_mergeBatch B (mergeBatch S B)
      (nodup_dictKeys_mergeBatch B S hnd)
  · exact dictKeys_mergeBatch_of_subset B (mergeBatch S B)
      (fun kv hkv => batch_keys_mem_mergeBatch B S kv hkv)
  · intro k
    rw [dictLookup_mergeBatch]
    cases hl : lastVal k B with
    | some v => rw [dictLookup_mergeBatch, hl]
    | none => rfl

/-- Closed instance of `merge_idempotent`. -/
theorem merge_idempotent_witness :
    mergeBatch (mergeBatch [("A", "v1"), ("C", "v3")] [("A", "v2"), ("B", "v4")])
        [("A", "v2"), ("B", "v4")]
      = mergeBatch [("A", "v1"), ("C", "v3")] [("A", "v2"), ("B", "v4")] :=
  merge_idempotent [("A", "v1"), ("C", "v3")] [("A", "v2"), ("B", "v4")] (by decide)

/-! ## ClusterDetector lemmas -/

/-- Deduplicating a nonempty constant list yields a singleton. -/
theorem dedup_of_all_eq {α : Type} [DecidableEq α] :
    ∀ (l : List α) (x : α), l ≠ [] → (∀ y ∈ l, y = x) → l.dedup = [x] := by
  intro l
  induction l with
  | nil => intro x h _; exact absurd rfl h
  | cons a t ih =>
    intro x _ h
    have ha : a = x := h a (List.mem_cons_self a t)
    subst ha
    cases t with
    | nil => simp
    | cons b t' =>
      have hb : b = a := h b (List.mem_cons_of_mem a (List.mem_cons_self b t'))
      rw [List.dedup_cons_of_mem (by rw [hb]; exact List.mem_cons_self a t')]
      exact ih a (by simp) (fun y hy => h y (List.mem_cons_of_mem a hy))

/-! ## C7: cluster detection (corrected) -/

/-- C7 counterexample: take two contributions with distinct normalized
donors whose employer string `"Google Meta"` contains the known company
name `"Meta"` and whose recipient committee is Meta's own PAC identifier
`"C00786883"`. The claim says such a group produces no event, but the code
resolves the employer to the FIRST matching company in table order
(Google), whose PAC differs, so a ClusterEvent IS produced. -/
theorem cluster_exclusion_first_match_cex :
    (COMPANY_PACS.any fun c =>
        pyIn (strLower c.1) (strLower "Google Meta") && ("C00786883" == c.2)) = true
      ∧ cexRec1.contributor_employer = "Google Meta"
      ∧ cexRec2.contributor_employer = "Google Meta"
      ∧ cexRec1.committee_id = "C00786883"
      ∧ cexRec2.committee_id = "C00786883"
      ∧ normStr cexRec1.contributor_name ≠ normStr cexRec2.contributor_name
      ∧ (format_cluster_data [cexRec1, cexRec2]).length = 1 := by
  refine ⟨by decide, rfl, rfl, rfl, rfl, by decide, by decide⟩

/-- C7 amended: (i) two contributions with distinct normalized donor names
from the same employer to the same committee, where no known company name
contained in the employer has that committee as its PAC, produce exactly
one ClusterEvent with `donorCount = 2` and `totalAmount` the sum of the
two amounts; (ii) a group with fewer than 2 distinct normalized donors
produces no event; (iii) a group whose employer's FIRST matching company
(in the fixed table order Google, Meta, Microsoft) has the group's
recipient committee as its own PAC identifier produces no event,
regardless of donor count. -/
theorem cluster_detection_amended (r1 r2 : ContribRecord)
    (rs : List ContribRecord) (cid emp : String) (kv : String × String) :
    (r2.committee_id = r1.committee_id →
      r2.contributor_employer = r1.contributor_employer →
      normStr r1.contributor_name ≠ normStr r2.contributor_name →
      (∀ c ∈ COMPANY_PACS,
        pyIn (strLower c.1) (strLower r1.contributor_employer) = true →
        r1.committee_id ≠ c.2) →
      ∃ c, format_cluster_data [r1, r2] = [c]
        ∧ c.donorCount = 2
        ∧ c.totalAmount
          = r1.contribution_receipt_amount + r2.contribution_receipt_amount)
    ∧ ((∀ r ∈ rs, r.committee_id = cid ∧ r.contributor_employer = emp) →
        ((rs.map fun r => normStr r.contributor_name).dedup).length < 2 →
        format_cluster_data rs = [])
    ∧ ((∀ r ∈ rs, r.committee_id = cid ∧ r.contributor_employer = emp) →
        employerMatch emp = some kv → cid = kv.2 →
        format_cluster_data rs = []) := by
  refine ⟨?_, ?_, ?_⟩
  · intro h2c h2e hnames hex
    have hgk : groupKeys [r1, r2]
        = [(r1.committee_id, r1.contributor_employer)] := by
      simp only [groupKeys, List.map_cons, List.map_nil, h2c, h2e]
      rw [List.dedup_cons_of_mem (by simp)]
      simp
    have hgr : groupRows [r1, r2] (r1.committee_id, r1.contributor_employer)
        = [r1, r2] := by
      simp [groupRows, h2c, h2e]
    have hexc : (match employerMatch r1.contributor_employer with
        | some c => r1.committee_id == c.2
        | none => false) = false := by
      cases hm : employerMatch r1.contributor_employer with
      | none => rfl
      | some c =>
        have hmem := List.mem_of_find?_eq_some hm
        have hpred := List.find?_some hm
        have hne := hex c hmem hpred
        simp [hne]
    have hnu : nuniqueNames [r1, r2] = 2 := by
      simp only [nuniqueNames, List.map_cons, List.map_nil]
      rw [List.dedup_cons_of_not_mem (by simp [hnames])]
      simp
    refine ⟨mkCluster r1 [r2], ?_, ?_, ?_⟩
    · simp only [format_cluster_data, List.isEmpty_cons, Bool.false_eq_true,
        if_false]
      rw [hgk]
      simp only [List.filterMap_cons, List.filterMap_nil]
      rw [hgr]
      simp only [hexc, Bool.false_eq_true, if_false, hnu]
      norm_num
    · simp [mkCluster, hnu]
    · simp [mkCluster]
  · intro hall hnu
    cases hrs : rs with
    | nil => rfl
    | cons r0 rest =>
      rw [← hrs]
      have hne : rs ≠ [] := by rw [hrs]; simp
      have hgk : groupKeys rs = [(cid, emp)] := by
        simp only [groupKeys]
        rw [dedup_of_all_eq _ (cid, emp) (by simpa using hne)
          (by
            intro y hy
            rcases List.mem_map.mp hy with ⟨r, hr, hry⟩
            obtain ⟨h1, h2⟩ := hall r hr
            rw [← hry, h1, h2])]
        simp
      have hgr : groupRows rs (cid, emp) = rs := by
        rw [groupRows, List.filter_eq_self]
        intro r hr
        obtain ⟨h1, h2⟩ := hall r hr
        simp [h1, h2]
      have hfc : format_cluster_data rs
          = List.insertionSort (fun a b => b.totalAmount ≤ a.totalAmount)
              ((groupKeys rs).filterMap fun k =>
                match groupRows rs k with
                | [] => none
                | r₀ :: rest =>
                  if (match employerMatch k.2 with
                      | some c => k.1 == c.2
                      | none => false) then none
                  else if nuniqueNames (r₀ :: rest) < 2 then none
                  else some (mkCluster r₀ rest)) := by
        rw [format_cluster_data]
        rw [if_neg (by simpa using hne)]
      rw [hfc, hgk]
      simp only [List.filterMap_cons, List.filterMap_nil]
      rw [hgr, hrs]
      have hnu' : nuniqueNames (r0 :: rest) < 2 := by
        simpa [nuniqueNames, hrs] using hnu
      cases hexc : (match employerMatch emp with
          | some c => cid == c.2
          | none => false)
      · simp [hexc, hnu', List.insertionSort]
      · simp [hexc, List.insertionSort]
  · intro hall hm hcid
    cases hrs : rs with
    | nil => rfl
    | cons r0 rest =>
      rw [← hrs]
      have hne : rs ≠ [] := by rw [hrs]; simp
      have hgk : groupKeys rs = [(cid, emp)] := by
        simp only [groupKeys]
        rw [dedup_of_all_eq _ (cid, emp) (by simpa using hne)
          (by
            intro y hy
            rcases List.mem_map.mp hy with ⟨r, hr, hry⟩
            obtain ⟨h1, h2⟩ := hall r hr
            rw [← hry, h1, h2])]
        simp
      have hgr : groupRows rs (cid, emp) = rs := by
        rw [groupRows, List.filter_eq_self]
        intro r hr
        obtain ⟨h1, h2⟩ := hall r hr
        simp [h1, h2]
      have hfc : format_cluster_data rs
          = List.insertionSort (fun a b => b.totalAmount ≤ a.totalAmount)
              ((groupKeys rs).filterMap fun k =>
                match groupRows rs k with
                | [] => none
                | r₀ :: rest =>
                  if (match employerMatch k.2 with
                      | some c => k.1 == c.2
                      | none => false) then none
                  else if nuniqueNames (r₀ :: rest) < 2 then none
                  else some (mkCluster r₀ rest)) := by
        rw [format_cluster_data]
        rw [if_neg (by simpa using hne)]
      rw [hfc, hgk]
      simp only [List.filterMap_cons, List.filterMap_nil]
      rw [hgr, hrs]
      have hexc : (match employerMatch emp with
          | some c => cid == c.2
          | none => false) = true := by
        rw [hm]
        simp [hcid]
      simp [hexc, List.insertionSort]

/-- Closed instance of `cluster_detection_amended`: two distinct Microsoft
donors to Microsoft's own PAC produce no event. -/
theorem cluster_detection_witness : format_cluster_data [msRec1, msRec2] = [] :=
  (cluster_detection_amended msRec1 msRec2 [msRec1, msRec2] "C00227546" "Microsoft"
      ("Microsoft", "C00227546")).2.2
    (by
      intro r hr
      simp only [List.mem_cons, List.not_mem_nil, or_false] at hr
      rcases hr with h | h <;> (subst h; exact ⟨rfl, rfl⟩))
    (by decide) rfl

/-! ## NameNormalizer lemmas -/

/-- `String.mk` is a left inverse of `String.data`. -/
theorem mk_data (s : String) : String.mk s.data = s := rfl

/-- `Char.toLower` never produces an uppercase ASCII letter. -/
theorem toLower_notUpper (c : Char) :
    ¬(c.toLower.toNat ≥ 65 ∧ c.toLower.toNat ≤ 90) := by
  unfold Char.toLower
  dsimp only
  split
  · rename_i h
    have hv : (c.toNat + 32).isValidChar := Or.inl (by omega)
    have ht : (Char.ofNat (c.toNat + 32)).toNat = c.toNat + 32 := by
      unfold Char.ofNat
      rw [dif_pos hv]
      rfl
    rw [ht]
    omega
  · rename_i h
    exact h

/-- A character that is not an uppercase ASCII letter is fixed by
`Char.toLower`. -/
theorem toLower_fix (c : Char) (h : ¬(c.toNat ≥ 65 ∧ c.toNat ≤ 90)) :
    c.toLower = c := by
  unfold Char.toLower
  rw [if_neg h]

/-- `Char.toLower` is idempotent. -/
theorem toLower_idem (c : Char) : c.toLower.toLower = c.toLower :=
  toLower_fix _ (toLower_notUpper c)

/-- Every token produced by the whitespace splitter is nonempty and
consists of non-whitespace characters satisfying any predicate holding on
the input (and on the accumulator). -/
theorem splitWsAux_mem (Q : Char → Prop) :
    ∀ (l acc : List Char), (∀ c ∈ l, Q c) →
      (∀ c ∈ acc, Q c ∧ c.isWhitespace = false) →
      ∀ t ∈ splitWsAux l acc,
        t.data ≠ [] ∧ ∀ c ∈ t.data, Q c ∧ c.isWhitespace = false := by
  intro l
  induction l with
  | nil =>
    intro acc _ hacc t ht
    cases hae : acc.isEmpty with
    | true => simp [splitWsAux, hae] at ht
    | false =>
      have hne : acc ≠ [] := by
        intro hEq
        rw [hEq] at hae
        cases hae
      simp only [splitWsAux, hae, Bool.false_eq_true, if_false,
        List.mem_singleton] at ht
      subst ht
      refine ⟨by simp [hne], fun c hc => ?_⟩
      exact hacc c (List.mem_reverse.mp hc)
  | cons ch cs ih =>
    intro acc hl hacc t ht
    cases hws : ch.isWhitespace with
    | true =>
      cases hae : acc.isEmpty with
      | true =>
        simp only [splitWsAux, hws, hae, if_true] at ht
        exact ih [] (fun c hc => hl c (List.mem_cons_of_mem ch hc)) (by simp) t ht
      | false =>
        have hne : acc ≠ [] := by
          intro hEq
          rw [hEq] at hae
          cases hae
        simp only [splitWsAux, hws, hae, Bool.false_eq_true, if_false,
          if_true, List.mem_cons] at ht
        rcases ht with hEq | ht'
        · subst hEq
          refine ⟨by simp [hne], fun c hc => ?_⟩
          exact hacc c (List.mem_reverse.mp hc)
        · exact ih [] (fun c hc => hl c (List.mem_cons_of_mem ch hc)) (by simp) t ht'
    | false =>
      simp only [splitWsAux, hws, Bool.false_eq_true, if_false] at ht
      refine ih (ch :: acc) (fun c hc => hl c (List.mem_cons_of_mem ch hc)) ?_ t ht
      intro c hc
      rcases List.mem_cons.mp hc with hEq | hc'
      · subst hEq
        exact ⟨hl c (List.mem_cons_self c cs), hws⟩
      · exact hacc c hc'

/-- Scanning a run of non-whitespace characters accumulates them into the
current token. -/
theorem splitWsAux_chunk :
    ∀ (tok l acc : List Char), (∀ c ∈ tok, c.isWhitespace = false) →
      splitWsAux (tok ++ l) acc = splitWsAux l (tok.reverse ++ acc) := by
  intro tok
  induction tok with
  | nil => intro l acc _; simp
  | cons ch tok' ih =>
    intro l acc h
    have hws : ch.isWhitespace = false := h ch (List.mem_cons_self ch tok')
    have hstep : splitWsAux ((ch :: tok') ++ l) acc
        = splitWsAux (tok' ++ l) (ch :: acc) := by
      show splitWsAux (ch :: (tok' ++ l)) acc = _
      simp [splitWsAux, hws]
    rw [hstep, ih l (ch :: acc) (fun c hc => h c (List.mem_cons_of_mem ch hc))]
    congr 1
    simp

/-- Splitting the space-join of nonempty whitespace-free tokens recovers
exactly those tokens. -/
theorem pySplit_joinSp :
    ∀ ts : List String,
      (∀ t ∈ ts, t.data ≠ [] ∧ ∀ c ∈ t.data, c.isWhitespace = false) →
      pySplit (joinSp ts) = ts := by
  intro ts
  induction ts with
  | nil => intro _; rfl
  | cons t ts' ih =>
    intro h
    obtain ⟨htne, htws⟩ := h t (List.mem_cons_self t ts')
    cases ts' with
    | nil =>
      show pySplit t = [t]
      unfold pySplit
      have hpad : t.data = t.data ++ [] := by simp
      rw [hpad, splitWsAux_chunk t.data [] [] htws]
      simp [splitWsAux, List.isEmpty_iff, htne]
    | cons t2 ts'' =>
      have hj : (joinSp (t :: t2 :: ts'')).data
          = t.data ++ (' ' :: (joinSp (t2 :: ts'')).data) := by
        show ((t ++ " ") ++ joinSp (t2 :: ts'')).data = _
        simp [String.data_append]
      unfold pySplit
      rw [hj, splitWsAux_chunk t.data _ [] htws]
      have hne : t.data.reverse.isEmpty = false := by
        simp [List.isEmpty_iff, htne]
      have hsp : (' ').isWhitespace = true := rfl
      simp only [splitWsAux, hsp, List.append_nil, hne, Bool.false_eq_true,
        if_false, if_true, List.reverse_reverse]
      rw [mk_data]
      congr 1
      exact ih (fun t' ht' => h t' (List.mem_cons_of_mem t ht'))

/-- Every character of a space-join is a space or a token character. -/
theorem mem_joinSp :
    ∀ (ts : List String) (c : Char), c ∈ (joinSp ts).data →
      c = ' ' ∨ ∃ t ∈ ts, c ∈ t.data := by
  intro ts
  induction ts with
  | nil => intro c hc; cases hc
  | cons t ts' ih =>
    intro c hc
    cases ts' with
    | nil => exact Or.inr ⟨t, List.mem_cons_self t [], hc⟩
    | cons t2 ts'' =>
      rw [show (joinSp (t :: t2 :: ts'')).data
          = (t.data ++ [' ']) ++ (joinSp (t2 :: ts'')).data from rfl] at hc
      rcases List.mem_append.mp hc with h1 | h2
      · rcases List.mem_append.mp h1 with h1a | h1b
        · exact Or.inr ⟨t, List.mem_cons_self t _, h1a⟩
        · exact Or.inl (List.mem_singleton.mp h1b)
      · rcases ih c h2 with hsp | ⟨t', ht', hc'⟩
        · exact Or.inl hsp
        · exact Or.inr ⟨t', List.mem_cons_of_mem t ht', hc'⟩

/-- A sorted list of nonempty, alphanumeric, lowercase-fixed tokens that
uniformly passes (or uniformly fails) the length-and-suffix filter is a
fixed point of the whole normalization pipeline once joined. -/
theorem norm_fixed_of (ts : List String)
    (hs : List.Sorted pyLe ts)
    (htok : ∀ t ∈ ts, t.data ≠ [] ∧ ∀ c ∈ t.data,
      c.isAlphanum = true ∧ c.isWhitespace = false ∧ c.toLower = c)
    (hkeep : (∀ t ∈ ts, keepToken t = true)
      ∨ (∀ t ∈ ts, keepToken t = false ∧ keepTokenFallback t = true)) :
    normStr (joinSp ts) = joinSp ts := by
  have houtch : ∀ c ∈ (joinSp ts).data,
      (c.isAlphanum || c.isWhitespace) = true ∧ c.toLower = c := by
    intro c hc
    rcases mem_joinSp ts c hc with hsp | ⟨t, ht, hct⟩
    · subst hsp
      exact ⟨by decide, by decide⟩
    · obtain ⟨ha, _, hl⟩ := (htok t ht).2 c hct
      exact ⟨by rw [ha]; rfl, hl⟩
  have hlow : pyLower (joinSp ts).data = (joinSp ts).data := by
    unfold pyLower
    rw [List.map_congr_left (fun c hc => (houtch c hc).2)]
    exact List.map_id _
  have hfil : keepAlnumSpace (joinSp ts).data = (joinSp ts).data :=
    List.filter_eq_self.mpr (fun c hc => (houtch c hc).1)
  have hsplit : pySplit (String.mk (keepAlnumSpace (pyLower (joinSp ts).data))) = ts := by
    rw [hlow, hfil, mk_data]
    exact pySplit_joinSp ts
      (fun t ht => ⟨(htok t ht).1, fun c hc => ((htok t ht).2 c hc).2.1⟩)
  have hclean : cleanedTokens ts = ts := by
    rcases hkeep with hk | hk
    · have h1 : ts.filter keepToken = ts := List.filter_eq_self.mpr hk
      cases hts : ts with
      | nil => rfl
      | cons a l =>
        rw [← hts]
        have hne2 : (ts.filter keepToken).isEmpty = false := by
          rw [h1, hts]
          rfl
        show (if (ts.filter keepToken).isEmpty then ts.filter keepTokenFallback
          else ts.filter keepToken) = ts
        rw [hne2]
        simp [h1]
    · have h0 : ts.filter keepToken = [] :=
        List.filter_eq_nil_iff.mpr (fun t ht => by simp [(hk t ht).1])
      have hfb : ts.filter keepTokenFallback = ts :=
        List.filter_eq_self.mpr (fun t ht => (hk t ht).2)
      show (if (ts.filter keepToken).isEmpty then ts.filter keepTokenFallback
        else ts.filter keepToken) = ts
      rw [h0]
      simp [hfb]
  show joinSp (List.insertionSort pyLe (cleanedTokens
    (pySplit (String.mk (keepAlnumSpace (pyLower (joinSp ts).data)))))) = joinSp ts
  rw [hsplit, hclean, hs.insertionSort_eq]

/-! ## C10: normalization is idempotent (confirmed) -/

/-- C10: `normalize_name` is idempotent on every string: normalized keys
are fixed points of the normalizer. -/
theorem normalize_name_idempotent (s : String) :
    normStr (normStr s) = normStr s := by
  haveI : IsTotal String pyLe := ⟨pyLe_total⟩
  haveI : IsTrans String pyLe := ⟨fun _ _ _ hab hbc => pyLe_trans hab hbc⟩
  have hQ1 : ∀ c ∈ keepAlnumSpace (pyLower s.data),
      ((c.isAlphanum || c.isWhitespace) = true ∧ c.toLower = c) := by
    intro c hc
    obtain ⟨hmem, hpred⟩ := List.mem_filter.mp hc
    obtain ⟨c₀, _, hc₀⟩ := List.mem_map.mp hmem
    exact ⟨hpred, by rw [← hc₀]; exact toLower_idem c₀⟩
  have hParts : ∀ t ∈ pySplit (String.mk (keepAlnumSpace (pyLower s.data))),
      t.data ≠ [] ∧ ∀ c ∈ t.data,
        ((c.isAlphanum || c.isWhitespace) = true ∧ c.toLower = c)
          ∧ c.isWhitespace = false :=
    splitWsAux_mem _ (keepAlnumSpace (pyLower s.data)) [] hQ1 (by simp)
  have hsub : ∀ t ∈ cleanedTokens (pySplit (String.mk (keepAlnumSpace (pyLower s.data)))),
      t ∈ pySplit (String.mk (keepAlnumSpace (pyLower s.data))) := by
    intro t ht
    have ht' : t ∈ (if ((pySplit (String.mk (keepAlnumSpace (pyLower s.data)))).filter
          keepToken).isEmpty
        then (pySplit (String.mk (keepAlnumSpace (pyLower s.data)))).filter
          keepTokenFallback
        else (pySplit (String.mk (keepAlnumSpace (pyLower s.data)))).filter
          keepToken) := ht
    split at ht'
    · exact (List.mem_filter.mp ht').1
    · exact (List.mem_filter.mp ht').1
  have htok : ∀ t ∈ List.insertionSort pyLe
        (cleanedTokens (pySplit (String.mk (keepAlnumSpace (pyLower s.data))))),
      t.data ≠ [] ∧ ∀ c ∈ t.data,
        c.isAlphanum = true ∧ c.isWhitespace = false ∧ c.toLower = c := by
    intro t ht
    have ht' := hsub t ((List.mem_insertionSort pyLe).mp ht)
    obtain ⟨hne, hch⟩ := hParts t ht'
    refine ⟨hne, fun c hc => ?_⟩
    obtain ⟨⟨halws, hlo⟩, hws⟩ := hch c hc
    refine ⟨?_, hws, hlo⟩
    cases ha2 : c.isAlphanum with
    | true => rfl
    | false =>
      rw [ha2, hws] at halws
      exact absurd halws (by decide)
  have hkeep : (∀ t ∈ List.insertionSort pyLe
        (cleanedTokens (pySplit (String.mk (keepAlnumSpace (pyLower s.data))))),
        keepToken t = true)
      ∨ (∀ t ∈ List.insertionSort pyLe
          (cleanedTokens (pySplit (String.mk (keepAlnumSpace (pyLower s.data))))),
          keepToken t = false ∧ keepTokenFallback t = true) := by
    cases hfe : ((pySplit (String.mk (keepAlnumSpace (pyLower s.data)))).filter
        keepToken).isEmpty with
    | false =>
      left
      intro t ht
      have ht' := (List.mem_insertionSort pyLe).mp ht
      rw [show cleanedTokens (pySplit (String.mk (keepAlnumSpace (pyLower s.data))))
          = (pySplit (String.mk (keepAlnumSpace (pyLower s.data)))).filter keepToken by
        simp [cleanedTokens, hfe]] at ht'
      exact (List.mem_filter.mp ht').2
    | true =>
      right
      intro t ht
      have ht' := (List.mem_insertionSort pyLe).mp ht
      rw [show cleanedTokens (pySplit (String.mk (keepAlnumSpace (pyLower s.data))))
          = (pySplit (String.mk (keepAlnumSpace (pyLower s.data)))).filter
              keepTokenFallback by
        simp [cleanedTokens, hfe]] at ht'
      obtain ⟨hmem, hfb⟩ := List.mem_filter.mp ht'
      refine ⟨?_, hfb⟩
      have h0 := List.isEmpty_iff.mp hfe
      by_contra hne
      have : t ∈ (pySplit (String.mk (keepAlnumSpace (pyLower s.data)))).filter
          keepToken := List.mem_filter.mpr ⟨hmem, by simpa using hne⟩
      rw [h0] at this
      cases this
  exact norm_fixed_of
    (List.insertionSort pyLe
      (cleanedTokens (pySplit (String.mk (keepAlnumSpace (pyLower s.data))))))
    (List.sorted_insertionSort pyLe _) htok hkeep

end TechContrib
